import Mathlib

/-!
Verification of the tindex collections library (typed indices, typed
vectors/slices, and a growable bit-packed set `TBitSet`).

The definitions below are a shallow embedding of the Rust source:
* `TBitSet<I>` stores a `Vec<u64>` of frames; we model it as `List Nat`
  whose entries are the `u64` frame values (all bit operations used by
  the source only touch bits 0..63, and shift amounts are always `< 64`,
  so `Nat` bitwise operations agree with the `u64` ones on the values
  the code can construct).
* `TVec<I, T>` wraps a `Vec<T>`; we model it as `List T`.
* the `TIndex` trait (`as_index` / `from_index`) is modelled as an
  explicit structure of two functions, with the two library-provided
  implementations (`usize`, `u32`) given concretely.
-/

set_option maxHeartbeats 1000000

namespace Tindex

/-- Rust `FRAME_SIZE = size_of::<u64>() * 8`. -/
def FRAME_SIZE : Nat := 64

/-- A `TBitSet` is its vector of `u64` frames (`inner: Vec<Frame>`). -/
abbrev TBitSet := List Nat

namespace TBitSet

/-- Rust `TBitSet::frame_count`: `self.inner.len()`. -/
def frame_count (s : TBitSet) : Nat := s.length

/-- Rust `TBitSet::clear`: `self.inner.clear()`. -/
def clear (_ : TBitSet) : TBitSet := []

/-- Rust `Vec::resize(n, 0)`: grow with zeros, or truncate, to length `n`. -/
def resize (s : TBitSet) (n : Nat) : TBitSet :=
  if n ≤ s.length then s.take n else s ++ List.replicate (n - s.length) 0

/-- Rust `TBitSet::get_usize`: locate the frame of `idx` (`idx / FRAME_SIZE`);
a missing frame means `false`, otherwise test the bit
`idx - frame_offset * FRAME_SIZE` of the frame. -/
def get_usize (s : TBitSet) (idx : Nat) : Bool :=
  let frame_offset := idx / FRAME_SIZE
  match s[frame_offset]? with
  | none => false
  | some v => v &&& (1 <<< (idx - frame_offset * FRAME_SIZE)) != 0

/-- Rust `TBitSet::set_usize`: when the frame of `idx` is missing, inserting
grows the frame vector to `frame_offset + 1` zero-filled frames and then
ors the bit in, while removing does nothing; when the frame exists, the
bit is ored in or masked out (`&= !(1 << k)`, i.e. and with the 64-bit
complement of the single-bit mask). -/
def set_usize (s : TBitSet) (idx : Nat) (value : Bool) : TBitSet :=
  let frame_offset := idx / FRAME_SIZE
  if s.length ≤ frame_offset then
    if value then
      let t := resize s (frame_offset + 1)
      t.set frame_offset (t.getD frame_offset 0 ||| (1 <<< (idx - frame_offset * FRAME_SIZE)))
    else s
  else if value then
    s.set frame_offset (s.getD frame_offset 0 ||| (1 <<< (idx - frame_offset * FRAME_SIZE)))
  else
    s.set frame_offset
      (s.getD frame_offset 0 &&& (0xFFFFFFFFFFFFFFFF ^^^ (1 <<< (idx - frame_offset * FRAME_SIZE))))

/-- Rust `TBitSet::add`: `set_usize(idx, true)`. -/
def add (s : TBitSet) (idx : Nat) : TBitSet := set_usize s idx true

/-- Rust `TBitSet::remove`: `set_usize(idx, false)`. -/
def remove (s : TBitSet) (idx : Nat) : TBitSet := set_usize s idx false

/-- Rust `TBitSet::flip_usize`: grow (zero-filled) when the frame is missing,
then xor the single-bit mask into the frame. -/
def flip_usize (s : TBitSet) (idx : Nat) : TBitSet :=
  let frame_offset := idx / FRAME_SIZE
  let t := if s.length ≤ frame_offset then resize s (frame_offset + 1) else s
  t.set frame_offset (t.getD frame_offset 0 ^^^ (1 <<< (idx - frame_offset * FRAME_SIZE)))

/-- Rust `u64::count_ones` on a frame value. -/
def count_ones (n : Nat) : Nat :=
  if h : n = 0 then 0 else n % 2 + count_ones (n / 2)
termination_by n
decreasing_by exact Nat.div_lt_self (Nat.pos_of_ne_zero h) (by decide)

/-- Rust `TBitSet::element_count`: fold summing `count_ones` of every frame. -/
def element_count (s : TBitSet) : Nat :=
  s.foldl (fun sum elem => sum + count_ones elem) 0

/-- Rust `TBitSet::shrink_to_fit`: pop trailing frames while the last one is 0. -/
def shrink_to_fit (s : TBitSet) : TBitSet :=
  if h : s.getLast? = some 0 then shrink_to_fit s.dropLast else s
termination_by s.length
decreasing_by
  cases s with
  | nil => simp at h
  | cons a t => simp [List.length_dropLast]

/-- Rust `impl PartialEq for TBitSet`: zip the shorter side extended by a
stream of zero frames against the longer side and require all pairs
equal (the infinite `repeat(0)` tail is cut off by `zip`, so appending
`length` difference many zeros is the same computation). -/
def eqFrames (a b : TBitSet) : Bool :=
  if frame_count a < frame_count b then
    ((a ++ List.replicate (b.length - a.length) 0).zip b).all fun p => p.1 == p.2
  else
    (a.zip (b ++ List.replicate (a.length - b.length) 0)).all fun p => p.1 == p.2

/-- Rust `TBitSet::union`: zip both frame vectors (truncating to the shorter)
and combine pointwise with bitwise and. -/
def union (a b : TBitSet) : TBitSet :=
  List.zipWith (fun l r => l &&& r) a b

/-!
The iterator `Iter { pos, end_pos }` over a borrowed `TBitSet`.  The
borrowed set is immutable during iteration, so we model the iterator
state as the pair `(pos, end_pos)` and pass the set separately.
`TBitSet::iter` starts at `pos = 0`, `end_pos = frame_count * FRAME_SIZE`.
-/

/-- The loop of `Iterator::next`: scan positions `pos, pos+1, ...` while
`pos <= end_pos`, advancing past each tested position, yielding the
first member found.  Returns the yielded item and the new `pos`. -/
def fwdNext (s : TBitSet) (pos e : Nat) : Option Nat × Nat :=
  if pos ≤ e then
    if get_usize s pos then (some pos, pos + 1) else fwdNext s (pos + 1) e
  else (none, pos)
termination_by e + 1 - pos

/-- Rust `Iterator::next` as a step on the full iterator state. -/
def next (s : TBitSet) (pos e : Nat) : Option Nat × Nat × Nat :=
  match fwdNext s pos e with
  | (y, pos') => (y, pos', e)

/-- The `while end_pos > pos` loop of `DoubleEndedIterator::next_back`:
test position `end_pos`, decrement, yield on a hit.  Returns the yielded
item and the new `end_pos`. -/
def bwdLoop (s : TBitSet) (pos e : Nat) : Option Nat × Nat :=
  if pos < e then
    if get_usize s e then (some e, e - 1) else bwdLoop s pos (e - 1)
  else (none, e)
termination_by e - pos

/-- Rust `DoubleEndedIterator::next_back` as a step on the full state: after
the loop, when `end_pos == pos` the meeting position itself is tested
once, with `pos` bumped so neither direction revisits it. -/
def nextBack (s : TBitSet) (pos e : Nat) : Option Nat × Nat × Nat :=
  match bwdLoop s pos e with
  | (some y, e') => (some y, pos, e')
  | (none, e') =>
    if e' = pos then
      ((if get_usize s e' then some e' else none), pos + 1, e')
    else (none, pos, e')

/-- Run an interleaving schedule of pulls against one iterator instance
(`true` = pull from the front via `next`, `false` = pull from the back
via `next_back`), collecting the front yields and the back yields in
pull order, and returning the final cursor state. -/
def runSched (s : TBitSet) : List Bool → Nat → Nat → List Nat × List Nat × Nat × Nat
  | [], p, e => ([], [], p, e)
  | d :: rest, p, e =>
    let r := if d then next s p e else nextBack s p e
    let q := runSched s rest r.2.1 r.2.2
    match r.1 with
    | some v => if d then (v :: q.1, q.2.1, q.2.2) else (q.1, v :: q.2.1, q.2.2)
    | none => q

/-- Full forward enumeration: pull from the front until exhaustion
(`frame_count * FRAME_SIZE + 2` front pulls are always enough). -/
def fwdAll (s : TBitSet) : List Nat :=
  (runSched s (List.replicate (frame_count s * FRAME_SIZE + 2) true) 0
    (frame_count s * FRAME_SIZE)).1

/-- The member positions an iterator with cursors `(p, e)` has not yet
consumed: the members of the closed interval `[p, e]`. -/
def pending (s : TBitSet) (p e : Nat) : List Nat :=
  (List.range' p (e + 1 - p)).filter (get_usize s)

end TBitSet

/-!  The `TIndex` trait and the typed vector / slice operations.  -/

/-- The `TIndex` trait: conversion between a logical index type `I` and
raw `usize` offsets (modelled as `Nat`). -/
structure TIndexImpl (I : Type) where
  as_index : I → Nat
  from_index : Nat → I

/-- Rust `impl TIndex for usize`: both directions are the identity. -/
def usizeIndex : TIndexImpl Nat := ⟨fun n => n, fun n => n⟩

/-- Rust `impl TIndex for u32`: a `u32` value is a `Nat` below `2^32`;
`as_index` widens (`self as usize`, value-preserving) and `from_index`
truncates (`index as u32`, i.e. reduction mod `2^32`). -/
def u32Index : TIndexImpl Nat := ⟨fun v => v, fun n => n % 2 ^ 32⟩

/-- A `TVec<I, T>` is its underlying `Vec<T>`. -/
abbrev TVec (T : Type) := List T

namespace TVec

/-- Rust `TVec::push`: read `len`, push the element, return `from_index(len)`. -/
def push {I T : Type} (ti : TIndexImpl I) (v : TVec T) (item : T) : I × TVec T :=
  let idx := v.length
  (ti.from_index idx, v ++ [item])

/-- Rust `TVec::append`: move all elements of `other` onto the end of `self`,
leaving `other` empty.  Returns the final `(self, other)` pair. -/
def append {T : Type} (v other : TVec T) : TVec T × TVec T :=
  (v ++ other, [])

/-- Rust `TVec::split_off`: `Vec::split_off(at)` — `self` keeps the first
`at` elements and the tail `[at, len)` is returned; `at > len` panics
(modelled as `none`). -/
def split_off {I T : Type} (ti : TIndexImpl I) (v : TVec T) (at_ : I) :
    Option (TVec T × TVec T) :=
  let n := ti.as_index at_
  if n ≤ v.length then some (v.take n, v.drop n) else none

end TVec

namespace TSlice

/-- The loop of core Rust `slice::binary_search_by` (three-way compare,
`left`/`right` bracketing): at each step `mid = left + (right-left)/2`,
move `left` past `mid` on `Less`, move `right` down to `mid` on
`Greater`, and return `Ok(mid)` on `Equal`; when the bracket is empty
return `Err(left)`.  The element lookup models `get_unchecked(mid)`
(its out-of-range fallback value is unreachable for `right ≤ len`). -/
def binarySearchGo {α : Type} [LinearOrder α] [Inhabited α] (xs : List α) (key : α)
    (left right : Nat) : Except Nat Nat :=
  if left < right then
    if xs.getD (left + (right - left) / 2) default < key then
      binarySearchGo xs key (left + (right - left) / 2 + 1) right
    else if key < xs.getD (left + (right - left) / 2) default then
      binarySearchGo xs key left (left + (right - left) / 2)
    else .ok (left + (right - left) / 2)
  else .error left
termination_by right - left
decreasing_by
  all_goals omega

/-- Rust `TSlice::binary_search` (delegating to `slice::binary_search`):
search the whole slice; the typed wrapper maps both the `Ok` index and
the `Err` insertion point through `I::from_index`. -/
def binary_search {α : Type} [LinearOrder α] [Inhabited α] (xs : List α) (key : α) :
    Except Nat Nat :=
  binarySearchGo xs key 0 xs.length

end TSlice

/-!  Helper lemmas about the bit-set embedding.  -/

namespace TBitSet

lemma sub_div_mul (i : Nat) : i - i / FRAME_SIZE * FRAME_SIZE = i % FRAME_SIZE := by
  simp only [FRAME_SIZE]
  omega

/-- Membership in terms of `Nat.testBit` of the (zero-defaulted) frame. -/
lemma get_usize_eq_testBit (s : TBitSet) (i : Nat) :
    get_usize s i = (s.getD (i / FRAME_SIZE) 0).testBit (i % FRAME_SIZE) := by
  unfold get_usize
  simp only [List.getD_eq_getElem?_getD]
  cases h : s[i / FRAME_SIZE]? with
  | none => simp only [h, Option.getD_none, Nat.zero_testBit]
  | some v =>
    simp only [h, Option.getD_some, sub_div_mul, Nat.one_shiftLeft]
    rw [Nat.and_two_pow]
    cases hb : v.testBit (i % FRAME_SIZE) <;> simp [hb]

lemma length_resize_grow (s : TBitSet) (n : Nat) (h : s.length ≤ n) :
    (resize s n).length = n := by
  unfold resize
  by_cases hn : n ≤ s.length
  · simp [hn]
  · simp [hn]
    omega

lemma resize_grow (s : TBitSet) (n : Nat) (h : s.length ≤ n) :
    resize s n = s ++ List.replicate (n - s.length) 0 := by
  unfold resize
  by_cases hn : n ≤ s.length
  · have : n = s.length := Nat.le_antisymm hn h
    simp [this]
  · simp [hn]

lemma length_set_usize (s : TBitSet) (idx : Nat) (value : Bool) :
    (set_usize s idx value).length =
      if s.length ≤ idx / FRAME_SIZE then
        (if value then idx / FRAME_SIZE + 1 else s.length)
      else s.length := by
  unfold set_usize
  by_cases h : s.length ≤ idx / FRAME_SIZE
  · cases value <;>
      simp [h, List.length_set, length_resize_grow s _ (Nat.le_succ_of_le h)]
  · cases value <;> simp [h, List.length_set]

lemma length_flip_usize (s : TBitSet) (idx : Nat) :
    (flip_usize s idx).length =
      if s.length ≤ idx / FRAME_SIZE then idx / FRAME_SIZE + 1 else s.length := by
  unfold flip_usize
  by_cases h : s.length ≤ idx / FRAME_SIZE
  · simp [h, List.length_set, length_resize_grow s _ (Nat.le_succ_of_le h)]
  · simp [h, List.length_set]

/-- Closed form of the growing branch of `set_usize .. true`: pad with
zero frames up to `idx / FRAME_SIZE + 1` and set the target frame to the
single-bit mask (the or hits a freshly zero-filled frame). -/
lemma set_usize_grow_eq (s : TBitSet) (idx : Nat) (h : s.length ≤ idx / FRAME_SIZE) :
    set_usize s idx true =
      (s ++ List.replicate (idx / FRAME_SIZE + 1 - s.length) 0).set (idx / FRAME_SIZE)
        (1 <<< (idx % FRAME_SIZE)) := by
  unfold set_usize
  simp only [if_pos h, if_true, ite_true, resize_grow s _ (Nat.le_succ_of_le h)]
  have hz : (s ++ List.replicate (idx / FRAME_SIZE + 1 - s.length) 0).getD
      (idx / FRAME_SIZE) 0 = 0 := by
    rw [List.getD_eq_getElem?_getD, List.getElem?_append_right h, List.getElem?_replicate]
    have : idx / FRAME_SIZE - s.length < idx / FRAME_SIZE + 1 - s.length := by omega
    simp [this]
  rw [hz, sub_div_mul, Nat.zero_or]

end TBitSet

/-!  Claim theorems C1–C3, C5.  -/

open TBitSet

/-- C1: `TBitSet::union` returns the set whose frame vector is the
element-wise bitwise AND of the overlapping frames, truncated to the
shorter frame count (the non-overlapping tail is dropped); equivalently,
`i` is a member of the result iff it is a member of both operands and
its frame position lies below both frame counts. -/
theorem union_is_truncated_intersection (a b : TBitSet) :
    frame_count (union a b) = min (frame_count a) (frame_count b)
    ∧ (∀ k, k < min (frame_count a) (frame_count b) →
        (union a b).getD k 0 = (a.getD k 0) &&& (b.getD k 0))
    ∧ (∀ i, get_usize (union a b) i =
        (get_usize a i && get_usize b i
          && decide (i / FRAME_SIZE < frame_count a)
          && decide (i / FRAME_SIZE < frame_count b))) := by
  refine ⟨by simp [frame_count, union, List.length_zipWith], ?_, ?_⟩
  · intro k hk
    simp only [frame_count, lt_min_iff] at hk
    simp only [union, List.getD_eq_getElem?_getD, List.getElem?_zipWith]
    rw [List.getElem?_eq_getElem hk.1, List.getElem?_eq_getElem hk.2]
    simp [List.getElem?_eq_getElem, hk.1, hk.2]
  · intro i
    simp only [get_usize_eq_testBit, frame_count]
    simp only [union, List.getD_eq_getElem?_getD, List.getElem?_zipWith]
    by_cases ha : i / FRAME_SIZE < a.length
    · by_cases hb : i / FRAME_SIZE < b.length
      · rw [List.getElem?_eq_getElem ha, List.getElem?_eq_getElem hb]
        simp [ha, hb, List.getElem?_eq_getElem, Nat.testBit_and]
      · rw [List.getElem?_eq_none (l := b) (by omega)]
        cases h : a[i / FRAME_SIZE]? <;> simp [hb, h]
    · rw [List.getElem?_eq_none (l := a) (by omega)]
      cases h : b[i / FRAME_SIZE]? <;> simp [ha, h]

/-- A closed instance of C1 at concrete input (all hypotheses nested in
the conjunction are discharged at the instance). -/
theorem union_is_truncated_intersection_witness :
    frame_count (union [2, 5] [6]) = min (frame_count [2, 5]) (frame_count [6])
    ∧ (∀ k, k < min (frame_count [2, 5]) (frame_count [6]) →
        (union [2, 5] [6] : TBitSet).getD k 0 =
          (([2, 5] : TBitSet).getD k 0) &&& (([6] : TBitSet).getD k 0))
    ∧ (∀ i, get_usize (union [2, 5] [6]) i =
        (get_usize [2, 5] i && get_usize [6] i
          && decide (i / FRAME_SIZE < frame_count [2, 5])
          && decide (i / FRAME_SIZE < frame_count [6]))) :=
  union_is_truncated_intersection [2, 5] [6]

/-- C2: the membership query is total: the bit position tested inside
the frame (`idx - frame_offset * FRAME_SIZE`) is always `< FRAME_SIZE`
(so the `u64` shift can never overflow, and the subtraction can never
underflow), and for any offset at or beyond the current frame storage
the answer is `false`, reported as an ordinary boolean. -/
theorem get_never_fails (s : TBitSet) (idx : Nat) :
    idx / FRAME_SIZE * FRAME_SIZE ≤ idx
    ∧ idx - idx / FRAME_SIZE * FRAME_SIZE < FRAME_SIZE
    ∧ (frame_count s ≤ idx / FRAME_SIZE → get_usize s idx = false) := by
  refine ⟨Nat.div_mul_le_self idx FRAME_SIZE, ?_, ?_⟩
  · simp only [FRAME_SIZE]; omega
  · intro h
    rw [get_usize_eq_testBit]
    rw [List.getD_eq_getElem?_getD, List.getElem?_eq_none h]
    simp

/-- Closed instance of C2 on an empty set and an offset far beyond any
addressable storage. -/
theorem get_never_fails_witness :
    10 ^ 40 / FRAME_SIZE * FRAME_SIZE ≤ 10 ^ 40
    ∧ 10 ^ 40 - 10 ^ 40 / FRAME_SIZE * FRAME_SIZE < FRAME_SIZE
    ∧ (frame_count [] ≤ 10 ^ 40 / FRAME_SIZE → get_usize [] (10 ^ 40) = false) :=
  get_never_fails [] (10 ^ 40)

/-- C3: inserting grows the frame vector to exactly
`⌈(idx+1)/FRAME_SIZE⌉ = idx / FRAME_SIZE + 1` frames when the current
count is smaller (zero-filling every newly created frame below the
target, whose only set bit is the target bit) and leaves the count
unchanged otherwise; removing never changes the frame count and is the
identity when the offset lies beyond current storage. -/
theorem set_grows_remove_never_allocates (s : TBitSet) (idx : Nat) :
    (idx / FRAME_SIZE + 1 = (idx + 1 + (FRAME_SIZE - 1)) / FRAME_SIZE)
    ∧ (frame_count s ≤ idx / FRAME_SIZE →
        frame_count (set_usize s idx true) = idx / FRAME_SIZE + 1)
    ∧ (idx / FRAME_SIZE < frame_count s →
        frame_count (set_usize s idx true) = frame_count s)
    ∧ (frame_count s ≤ idx / FRAME_SIZE →
        ∀ k, frame_count s ≤ k → k ≠ idx / FRAME_SIZE →
          (set_usize s idx true).getD k 0 = 0)
    ∧ (frame_count s ≤ idx / FRAME_SIZE →
        (set_usize s idx true).getD (idx / FRAME_SIZE) 0 = 1 <<< (idx % FRAME_SIZE))
    ∧ frame_count (set_usize s idx false) = frame_count s
    ∧ (frame_count s ≤ idx / FRAME_SIZE → set_usize s idx false = s) := by
  have hceil : idx / FRAME_SIZE + 1 = (idx + 1 + (FRAME_SIZE - 1)) / FRAME_SIZE := by
    simp only [FRAME_SIZE]; omega
  refine ⟨hceil, ?_, ?_, ?_, ?_, ?_, ?_⟩
  · intro h
    simp only [frame_count] at h ⊢
    rw [length_set_usize]
    simp [h]
  · intro h
    simp only [frame_count] at h ⊢
    rw [length_set_usize]
    simp [Nat.not_le.mpr h]
  · intro h k hk hk2
    simp only [frame_count] at h hk
    rw [set_usize_grow_eq s idx h]
    rw [List.getD_eq_getElem?_getD, List.getElem?_set_ne (Ne.symm hk2),
      List.getElem?_append_right hk, List.getElem?_replicate]
    by_cases hklt : k - s.length < idx / FRAME_SIZE + 1 - s.length
    · simp [hklt]
    · simp [hklt]
  · intro h
    simp only [frame_count] at h
    rw [set_usize_grow_eq s idx h]
    have hlen : (s ++ List.replicate (idx / FRAME_SIZE + 1 - s.length) 0).length
        = idx / FRAME_SIZE + 1 := by
      simp [List.length_append, List.length_replicate]; omega
    rw [List.getD_eq_getElem?_getD, List.getElem?_set_self (by omega), Option.getD_some]
  · simp only [frame_count, length_set_usize]
    by_cases h : s.length ≤ idx / FRAME_SIZE <;> simp [h]
  · intro h
    simp only [frame_count] at h
    unfold set_usize
    simp [h]

/-- Closed instance of C3: inserting offset `130` into a one-frame set
grows it to `⌈131/64⌉ = 3` frames; removing offset `130` from it is a
no-op. -/
theorem set_grows_remove_never_allocates_witness :
    (130 / FRAME_SIZE + 1 = (130 + 1 + (FRAME_SIZE - 1)) / FRAME_SIZE)
    ∧ (frame_count [9] ≤ 130 / FRAME_SIZE →
        frame_count (set_usize [9] 130 true) = 130 / FRAME_SIZE + 1)
    ∧ (130 / FRAME_SIZE < frame_count [9] →
        frame_count (set_usize [9] 130 true) = frame_count [9])
    ∧ (frame_count [9] ≤ 130 / FRAME_SIZE →
        ∀ k, frame_count [9] ≤ k → k ≠ 130 / FRAME_SIZE →
          (set_usize [9] 130 true).getD k 0 = 0)
    ∧ (frame_count [9] ≤ 130 / FRAME_SIZE →
        (set_usize [9] 130 true).getD (130 / FRAME_SIZE) 0 = 1 <<< (130 % FRAME_SIZE))
    ∧ frame_count (set_usize [9] 130 false) = frame_count [9]
    ∧ (frame_count [9] ≤ 130 / FRAME_SIZE → set_usize [9] 130 false = [9]) :=
  set_grows_remove_never_allocates [9] 130

/-- C5 counterexample: `TBitSet::clear` is a mutating operation other
than the explicit trim (`shrink_to_fit`), yet it shrinks the frame
count: on the concrete one-frame set `add ∅ 0` it drops the frame count
from 1 to 0, refuting the claim as stated. -/
theorem clear_shrinks_frame_count :
    ¬ (frame_count (add [] 0) ≤ frame_count (clear (add [] 0))) := by
  decide

/-- C5 (amended): the mutating operations `set`, `add`, `remove` and
`flip` never shrink the frame count; `clear`, however, also shrinks it
(to zero), so the amended claim restricts to those four operations. -/
theorem mutators_never_shrink (s : TBitSet) (idx : Nat) (value : Bool) :
    frame_count s ≤ frame_count (set_usize s idx value)
    ∧ frame_count s ≤ frame_count (add s idx)
    ∧ frame_count s ≤ frame_count (remove s idx)
    ∧ frame_count s ≤ frame_count (flip_usize s idx) := by
  have hset : ∀ w, s.length ≤ (set_usize s idx w).length := by
    intro w
    rw [length_set_usize]
    by_cases h : s.length ≤ idx / FRAME_SIZE <;> cases w <;> simp [h] <;> omega
  have hflip : s.length ≤ (flip_usize s idx).length := by
    rw [length_flip_usize]
    by_cases h : s.length ≤ idx / FRAME_SIZE <;> simp [h] <;> omega
  exact ⟨hset value, hset true, hset false, hflip⟩

/-!  Claims C7, C8, C10: typed vector operations and index conversions.  -/

/-- C7: `TVec::push` always succeeds (it is total), appends the element
and returns the logical index minted from the length before the push —
the former one-past-the-end offset — and the `from_offset ∘ to_offset`
round-trip holds on every index obtained from push, for both provided
index implementations (`usize` and `u32`). -/
theorem push_returns_former_end {T : Type} (v : TVec T) (x : T) :
    (TVec.push usizeIndex v x).2 = v ++ [x]
    ∧ (TVec.push usizeIndex v x).1 = usizeIndex.from_index v.length
    ∧ usizeIndex.from_index (usizeIndex.as_index (TVec.push usizeIndex v x).1)
        = (TVec.push usizeIndex v x).1
    ∧ (TVec.push u32Index v x).2 = v ++ [x]
    ∧ (TVec.push u32Index v x).1 = u32Index.from_index v.length
    ∧ u32Index.from_index (u32Index.as_index (TVec.push u32Index v x).1)
        = (TVec.push u32Index v x).1 := by
  refine ⟨rfl, rfl, rfl, rfl, rfl, ?_⟩
  show (v.length % 2 ^ 32) % 2 ^ 32 = v.length % 2 ^ 32
  omega

/-- C8: for an in-bounds logical index, `TVec::split_off` truncates the
vector to its first `to_offset k` elements and returns the removed tail
in order, and `TVec::append` of that tail back reconstructs the original
sequence exactly, leaving the appended source empty. -/
theorem split_off_append_inverse {T : Type} (v : TVec T) (k : Nat)
    (h : usizeIndex.as_index k ≤ v.length) :
    TVec.split_off usizeIndex v k = some (v.take k, v.drop k)
    ∧ TVec.append (v.take k) (v.drop k) = (v, []) := by
  have h' : k ≤ v.length := h
  constructor
  · simp [TVec.split_off, usizeIndex, h']
  · simp [TVec.append, List.take_append_drop]

/-- Closed instance of C8, the spec's concrete scenario: splitting
`[10,20,30,40,50]` at logical index 2 yields `[10,20]` and tail
`[30,40,50]`, and appending the tail back reconstructs the original. -/
theorem split_off_append_inverse_witness :
    TVec.split_off usizeIndex [10, 20, 30, 40, 50] 2 = some ([10, 20], [30, 40, 50])
    ∧ TVec.append [10, 20] [30, 40, 50] = (([10, 20, 30, 40, 50] : TVec Nat), []) :=
  split_off_append_inverse [10, 20, 30, 40, 50] 2 (by decide)

/-- C10: the built-in `u32` index implementation truncates on
construction: `from_index n = n mod 2^32`, the `as_index ∘ from_index`
round-trip holds exactly when `n < 2^32`, and constructing a `u32`
index from offset `2^32` silently wraps to 0 instead of failing. -/
theorem u32_from_index_truncates (n : Nat) :
    u32Index.from_index n = n % 2 ^ 32
    ∧ (u32Index.as_index (u32Index.from_index n) = n ↔ n < 2 ^ 32)
    ∧ u32Index.as_index (u32Index.from_index (2 ^ 32)) = 0 := by
  refine ⟨rfl, ?_, by norm_num [u32Index]⟩
  show n % 2 ^ 32 = n ↔ n < 2 ^ 32
  constructor
  · intro h
    by_contra hn
    omega
  · exact Nat.mod_eq_of_lt

/-!  Claim C9: binary search.  -/

/-- An insertion point `i` whose strict bounds hold yields a sorted list
after inserting `key` at `i`. -/
lemma pairwise_insert_of_bounds {α : Type} [LinearOrder α] (xs : List α) (key : α)
    (i : Nat) (hs : List.Pairwise (· ≤ ·) xs)
    (hlo : ∀ j (hj : j < xs.length), j < i → xs[j] < key)
    (hhi : ∀ j (hj : j < xs.length), i ≤ j → key < xs[j]) :
    List.Pairwise (· ≤ ·) (xs.take i ++ key :: xs.drop i) := by
  rw [List.pairwise_append]
  refine ⟨List.Pairwise.sublist (List.take_sublist i xs) hs, ?_, ?_⟩
  · rw [List.pairwise_cons]
    refine ⟨?_, List.Pairwise.sublist (List.drop_sublist i xs) hs⟩
    intro b hb
    rw [List.mem_iff_getElem] at hb
    obtain ⟨j, hj, rfl⟩ := hb
    rw [List.getElem_drop]
    exact le_of_lt (hhi (i + j) (by simp at hj; omega) (by omega))
  · intro a ha b hb
    rw [List.mem_iff_getElem] at ha
    obtain ⟨j, hj, rfl⟩ := ha
    have hjlen : j < xs.length := by
      simp [List.length_take] at hj
      omega
    have hji : j < i := by
      simp [List.length_take] at hj
      omega
    rw [List.getElem_take]
    have hak : xs[j] < key := hlo j hjlen hji
    rcases List.mem_cons.mp hb with rfl | hbd
    · exact le_of_lt hak
    · rw [List.mem_iff_getElem] at hbd
      obtain ⟨m, hm, rfl⟩ := hbd
      rw [List.getElem_drop]
      exact le_of_lt (lt_trans hak (hhi (i + m) (by simp at hm; omega) (by omega)))

/-- Loop invariant of the `binarySearchGo` bracket `[left, right)`:
everything strictly below `left` is `< key`, everything at or above
`right` is `> key`. -/
lemma binarySearchGo_spec {α : Type} [LinearOrder α] [Inhabited α] (xs : List α) (key : α)
    (hs : List.Pairwise (· ≤ ·) xs) :
    ∀ n left right, n = right - left → left ≤ right → right ≤ xs.length →
    (∀ j (hj : j < xs.length), j < left → xs[j] < key) →
    (∀ j (hj : j < xs.length), right ≤ j → key < xs[j]) →
    (∀ i, TSlice.binarySearchGo xs key left right = .ok i →
       ∃ hh : i < xs.length, xs[i] = key)
    ∧ (∀ i, TSlice.binarySearchGo xs key left right = .error i →
       i ≤ xs.length
       ∧ (∀ j (hj : j < xs.length), j < i → xs[j] < key)
       ∧ (∀ j (hj : j < xs.length), i ≤ j → key < xs[j])) := by
  have hpw := List.pairwise_iff_getElem.mp hs
  intro n
  induction n using Nat.strong_induction_on with
  | _ n ih =>
    intro left right hn hlr hrlen hlo hhi
    by_cases hcmp : left < right
    · have hmid : left + (right - left) / 2 < xs.length := by omega
      have hmid2 : left + (right - left) / 2 < right := by omega
      have hv : xs.getD (left + (right - left) / 2) default
          = xs[left + (right - left) / 2] := by
        rw [List.getD_eq_getElem?_getD, List.getElem?_eq_getElem hmid, Option.getD_some]
      rw [TSlice.binarySearchGo, if_pos hcmp, hv]
      set mid := left + (right - left) / 2 with hmiddef
      by_cases h1 : xs[mid] < key
      · rw [if_pos h1]
        refine ih (right - (mid + 1)) (by omega) (mid + 1) right (by omega) (by omega)
          hrlen ?_ hhi
        intro j hj hjm
        rcases Nat.lt_or_ge j left with hc | hc
        · exact hlo j hj hc
        · rcases Nat.eq_or_lt_of_le (Nat.le_of_lt_succ hjm) with rfl | hjm2
          · exact h1
          · exact lt_of_le_of_lt (hpw j mid hj hmid hjm2) h1
      · rw [if_neg h1]
        by_cases h2 : key < xs[mid]
        · rw [if_pos h2]
          refine ih (mid - left) (by omega) left mid (by omega) (by omega)
            (by omega) hlo ?_
          intro j hj hjm
          rcases Nat.eq_or_lt_of_le hjm with rfl | hjm2
          · exact h2
          · exact lt_of_lt_of_le h2 (hpw mid j hmid hj hjm2)
        · rw [if_neg h2]
          constructor
          · intro i hi
            cases hi
            exact ⟨hmid, le_antisymm (le_of_not_lt h2) (le_of_not_lt h1)⟩
          · intro i hi
            cases hi
    · rw [TSlice.binarySearchGo, if_neg hcmp]
      have : left = right := by omega
      constructor
      · intro i hi
        cases hi
      · intro i hi
        cases hi
        exact ⟨by omega, hlo, by rw [this]; exact hhi⟩

/-- C9: on a sorted slice, `binary_search` returns on success the index
of a matching element and on failure the insertion point that preserves
order, both through the same index type and told apart only by the
`Ok`/`Err` constructor; concretely, searching 25 in `[10,20,30,40]`
yields the failure result carrying insertion point 2. -/
theorem binary_search_correct {α : Type} [LinearOrder α] [Inhabited α]
    (xs : List α) (key : α) (hs : List.Pairwise (· ≤ ·) xs) :
    (∀ i, TSlice.binary_search xs key = .ok i →
       ∃ hh : i < xs.length, xs[i] = key)
    ∧ (∀ i, TSlice.binary_search xs key = .error i →
       i ≤ xs.length ∧ List.Pairwise (· ≤ ·) (xs.take i ++ key :: xs.drop i))
    ∧ TSlice.binary_search ([10, 20, 30, 40] : List Int) 25 = .error 2 := by
  have hspec := binarySearchGo_spec xs key hs xs.length 0 xs.length (by omega)
    (Nat.zero_le _) le_rfl
    (by intro j hj hc; exact absurd hc (Nat.not_lt_zero j))
    (by intro j hj hc; exact absurd hj (Nat.not_lt.mpr hc))
  refine ⟨hspec.1, ?_, ?_⟩
  · intro i hi
    obtain ⟨hile, hplo, hphi⟩ := hspec.2 i hi
    exact ⟨hile, pairwise_insert_of_bounds xs key i hs hplo hphi⟩
  · show TSlice.binarySearchGo [10, 20, 30, 40] (25 : Int) 0 4 = .error 2
    rw [TSlice.binarySearchGo]
    norm_num
    rw [TSlice.binarySearchGo]
    norm_num
    rw [TSlice.binarySearchGo]
    norm_num

/-!  Iterator lemmas (C6): characterising the cursor state machine.  -/

namespace TBitSet

lemma pending_nil (s : TBitSet) (p e : Nat) (h : e + 1 ≤ p) : pending s p e = [] := by
  unfold pending
  have h0 : e + 1 - p = 0 := by omega
  rw [h0]
  rfl

lemma pending_cons (s : TBitSet) (p e : Nat) (h : p ≤ e) :
    pending s p e = (if get_usize s p then [p] else []) ++ pending s (p + 1) e := by
  unfold pending
  have h1 : e + 1 - p = (e + 1 - (p + 1)) + 1 := by omega
  rw [h1, List.range'_succ, List.filter_cons]
  by_cases hg : get_usize s p <;> simp [hg]

lemma pending_split (s : TBitSet) (a c b : Nat) (h1 : a ≤ c + 1) (h2 : c ≤ b) :
    pending s a b = pending s a c ++ pending s (c + 1) b := by
  unfold pending
  rw [← List.filter_append]
  congr 1
  have hr := List.range'_append_1 a (c + 1 - a) (b - c)
  have ha : a + (c + 1 - a) = c + 1 := by omega
  have hb : (b - c) + (c + 1 - a) = b + 1 - a := by omega
  rw [ha, hb] at hr
  have hc : b + 1 - (c + 1) = b - c := by omega
  rw [hc]
  exact hr.symm

lemma fwdNext_spec (s : TBitSet) (e : Nat) :
    ∀ n p, n = e + 1 - p → p ≤ e + 1 →
    (fwdNext s p e = (none, e + 1) ∧ pending s p e = []) ∨
    (∃ y, p ≤ y ∧ y ≤ e ∧ get_usize s y ∧ fwdNext s p e = (some y, y + 1)
      ∧ pending s p e = y :: pending s (y + 1) e) := by
  intro n
  induction n using Nat.strong_induction_on with
  | _ n ih =>
    intro p hn hp
    by_cases hpe : p ≤ e
    · rw [fwdNext, if_pos hpe]
      by_cases hg : get_usize s p
      · rw [if_pos hg]
        right
        exact ⟨p, le_rfl, hpe, hg, rfl, by rw [pending_cons s p e hpe, if_pos hg]; rfl⟩
      · rw [if_neg hg]
        rcases ih (e + 1 - (p + 1)) (by omega) (p + 1) rfl (by omega) with
          ⟨hfn, hpend⟩ | ⟨y, hy1, hy2, hy3, hy4, hy5⟩
        · left
          exact ⟨hfn, by rw [pending_cons s p e hpe, if_neg hg, hpend]; rfl⟩
        · right
          exact ⟨y, by omega, hy2, hy3, hy4,
            by rw [pending_cons s p e hpe, if_neg hg, hy5]; rfl⟩
    · left
      have hpe1 : p = e + 1 := by omega
      rw [fwdNext, if_neg hpe]
      exact ⟨by rw [hpe1], pending_nil s p e (by omega)⟩

lemma bwdLoop_spec (s : TBitSet) (p : Nat) :
    ∀ e, p ≤ e →
    (bwdLoop s p e = (none, p) ∧ pending s (p + 1) e = []) ∨
    (∃ y, p < y ∧ y ≤ e ∧ get_usize s y ∧ bwdLoop s p e = (some y, y - 1)
      ∧ pending s (p + 1) e = pending s (p + 1) (y - 1) ++ [y]) := by
  intro e
  induction e using Nat.strong_induction_on with
  | _ e ih =>
    intro hpe
    by_cases hlt : p < e
    · have he1 : e - 1 + 1 = e := by omega
      have hsplit : pending s (p + 1) e = pending s (p + 1) (e - 1) ++ pending s e e := by
        rw [pending_split s (p + 1) (e - 1) e (by omega) (by omega), he1]
      have hee : pending s e e = if get_usize s e then [e] else [] := by
        rw [pending_cons s e e le_rfl, pending_nil s (e + 1) e (by omega), List.append_nil]
      rw [bwdLoop, if_pos hlt]
      by_cases hg : get_usize s e
      · rw [if_pos hg]
        right
        refine ⟨e, hlt, le_rfl, hg, rfl, ?_⟩
        rw [hsplit, hee, if_pos hg]
      · rw [if_neg hg]
        rcases ih (e - 1) (by omega) (by omega) with
          ⟨hb, hpend⟩ | ⟨y, hy1, hy2, hy3, hy4, hy5⟩
        · left
          refine ⟨hb, ?_⟩
          rw [hsplit, hee, if_neg hg, hpend]
          rfl
        · right
          refine ⟨y, hy1, by omega, hy3, hy4, ?_⟩
          rw [hsplit, hee, if_neg hg, hy5, List.append_nil]
    · have hpe2 : p = e := by omega
      rw [bwdLoop, if_neg hlt]
      left
      exact ⟨by rw [hpe2], pending_nil s (p + 1) e (by omega)⟩

/-- Lemma for `next` as a pull step: the back cursor is untouched, and the pull
either yields the least pending position or empties the pending range. -/
lemma next_spec (s : TBitSet) (p e : Nat) (h : p ≤ e + 1) :
    (next s p e).2.1 ≤ (next s p e).2.2 + 1
    ∧ (next s p e).2.2 = e
    ∧ ((next s p e).1 = none →
        pending s (next s p e).2.1 (next s p e).2.2 = pending s p e)
    ∧ (∀ v, (next s p e).1 = some v →
        pending s p e = v :: pending s (next s p e).2.1 (next s p e).2.2) := by
  rcases fwdNext_spec s e (e + 1 - p) p rfl h with ⟨hf, hpend⟩ | ⟨y, hy1, hy2, hy3, hy4, hy5⟩
  · have hn : next s p e = (none, e + 1, e) := by simp [next, hf]
    rw [hn]
    refine ⟨le_rfl, rfl, ?_, ?_⟩
    · intro _
      rw [pending_nil s (e + 1) e (by omega), hpend]
    · intro v hv
      simp at hv
  · have hn : next s p e = (some y, y + 1, e) := by simp [next, hy4]
    rw [hn]
    refine ⟨?_, rfl, ?_, ?_⟩
    · show y + 1 ≤ e + 1
      omega
    · intro hv
      simp at hv
    · intro v hv
      simp only [Option.some.injEq] at hv
      rw [← hv]
      exact hy5

/-- Lemma for `nextBack` as a pull step: the pull either yields the greatest
pending position or empties the pending range; the meeting position is
consumed exactly once. -/
lemma nextBack_spec (s : TBitSet) (p e : Nat) (h : p ≤ e + 1) :
    (nextBack s p e).2.1 ≤ (nextBack s p e).2.2 + 1
    ∧ ((nextBack s p e).1 = none →
        pending s (nextBack s p e).2.1 (nextBack s p e).2.2 = pending s p e)
    ∧ (∀ v, (nextBack s p e).1 = some v →
        pending s p e = pending s (nextBack s p e).2.1 (nextBack s p e).2.2 ++ [v]) := by
  by_cases hpe : p ≤ e
  · rcases bwdLoop_spec s p e hpe with ⟨hb, hpend⟩ | ⟨y, hy1, hy2, hy3, hy4, hy5⟩
    · by_cases hg : get_usize s p
      · have hn : nextBack s p e = (some p, p + 1, p) := by
          simp [nextBack, hb, hg]
        rw [hn]
        refine ⟨le_rfl, ?_, ?_⟩
        · intro hv
          simp at hv
        · intro v hv
          simp only [Option.some.injEq] at hv
          rw [← hv, pending_nil s (p + 1) p (by omega), pending_cons s p e hpe,
            if_pos hg, hpend]
          rfl
      · have hn : nextBack s p e = (none, p + 1, p) := by
          simp [nextBack, hb, hg]
        rw [hn]
        refine ⟨le_rfl, ?_, ?_⟩
        · intro _
          rw [pending_nil s (p + 1) p (by omega), pending_cons s p e hpe, if_neg hg, hpend]
          rfl
        · intro v hv
          simp at hv
    · have hn : nextBack s p e = (some y, p, y - 1) := by
        simp [nextBack, hy4]
      rw [hn]
      refine ⟨?_, ?_, ?_⟩
      · show p ≤ y - 1 + 1
        omega
      · intro hv
        simp at hv
      · intro v hv
        simp only [Option.some.injEq] at hv
        rw [← hv]
        have hy1' : p ≤ y - 1 + 1 := by omega
        rcases Nat.lt_or_ge p y with hlt | hge
        · rw [pending_cons s p e hpe, hy5, pending_cons s p (y - 1) (by omega)]
          simp [List.append_assoc]
        · omega
  · have hb : bwdLoop s p e = (none, e) := by
      rw [bwdLoop, if_neg (by omega)]
    have hne : ¬ (e = p) := by omega
    have hn : nextBack s p e = (none, p, e) := by
      simp [nextBack, hb, hne]
    rw [hn]
    exact ⟨h, fun _ => rfl, fun v hv => by simp at hv⟩

/-- One-step unfoldings of `runSched` (four cases: pull direction and
whether the pull yielded). -/
lemma runSched_true_some (s : TBitSet) (rest : List Bool) (p e v : Nat)
    (h : (next s p e).1 = some v) :
    runSched s (true :: rest) p e =
      (v :: (runSched s rest (next s p e).2.1 (next s p e).2.2).1,
       (runSched s rest (next s p e).2.1 (next s p e).2.2).2.1,
       (runSched s rest (next s p e).2.1 (next s p e).2.2).2.2) := by
  conv_lhs => unfold runSched
  simp [h]

lemma runSched_true_none (s : TBitSet) (rest : List Bool) (p e : Nat)
    (h : (next s p e).1 = none) :
    runSched s (true :: rest) p e = runSched s rest (next s p e).2.1 (next s p e).2.2 := by
  conv_lhs => unfold runSched
  simp [h]

lemma runSched_false_some (s : TBitSet) (rest : List Bool) (p e v : Nat)
    (h : (nextBack s p e).1 = some v) :
    runSched s (false :: rest) p e =
      ((runSched s rest (nextBack s p e).2.1 (nextBack s p e).2.2).1,
       v :: (runSched s rest (nextBack s p e).2.1 (nextBack s p e).2.2).2.1,
       (runSched s rest (nextBack s p e).2.1 (nextBack s p e).2.2).2.2) := by
  conv_lhs => unfold runSched
  simp [h]

lemma runSched_false_none (s : TBitSet) (rest : List Bool) (p e : Nat)
    (h : (nextBack s p e).1 = none) :
    runSched s (false :: rest) p e
      = runSched s rest (nextBack s p e).2.1 (nextBack s p e).2.2 := by
  conv_lhs => unfold runSched
  simp [h]

/-- The run invariant: at any point of any interleaving, the front
yields, then the still-pending members, then the reversed back yields,
spell out exactly the originally pending members. -/
lemma runSched_inv (s : TBitSet) :
    ∀ sched p e, p ≤ e + 1 →
    (runSched s sched p e).2.2.1 ≤ (runSched s sched p e).2.2.2 + 1
    ∧ (runSched s sched p e).1
        ++ pending s (runSched s sched p e).2.2.1 (runSched s sched p e).2.2.2
        ++ (runSched s sched p e).2.1.reverse = pending s p e := by
  intro sched
  induction sched with
  | nil =>
    intro p e h
    refine ⟨h, ?_⟩
    simp [runSched]
  | cons d rest ih =>
    intro p e h
    cases d
    · obtain ⟨hb1, hb2, hb3⟩ := nextBack_spec s p e h
      cases hry : (nextBack s p e).1 with
      | none =>
        rw [runSched_false_none s rest p e hry]
        obtain ⟨hq1, hq2⟩ := ih (nextBack s p e).2.1 (nextBack s p e).2.2 hb1
        exact ⟨hq1, by rw [hq2, hb2 hry]⟩
      | some v =>
        rw [runSched_false_some s rest p e v hry]
        obtain ⟨hq1, hq2⟩ := ih (nextBack s p e).2.1 (nextBack s p e).2.2 hb1
        refine ⟨hq1, ?_⟩
        simp only [List.reverse_cons]
        rw [hb3 v hry, ← hq2]
        simp [List.append_assoc]
    · obtain ⟨hf1, hf2, hf3, hf4⟩ := next_spec s p e h
      cases hry : (next s p e).1 with
      | none =>
        rw [runSched_true_none s rest p e hry]
        obtain ⟨hq1, hq2⟩ := ih (next s p e).2.1 (next s p e).2.2 hf1
        exact ⟨hq1, by rw [hq2, hf3 hry]⟩
      | some v =>
        rw [runSched_true_some s rest p e v hry]
        obtain ⟨hq1, hq2⟩ := ih (next s p e).2.1 (next s p e).2.2 hf1
        refine ⟨hq1, ?_⟩
        rw [hf4 v hry, ← hq2]
        simp [List.append_assoc]

/-- A pure-front schedule never collects back yields. -/
lemma runSched_true_back_nil (s : TBitSet) :
    ∀ k p e, (runSched s (List.replicate k true) p e).2.1 = [] := by
  intro k
  induction k with
  | zero =>
    intro p e
    simp [runSched]
  | succ m ih =>
    intro p e
    rw [List.replicate_succ]
    cases hry : (next s p e).1 with
    | none =>
      rw [runSched_true_none s _ p e hry]
      exact ih _ _
    | some v =>
      rw [runSched_true_some s _ p e v hry]
      exact ih _ _

/-- Enough front pulls exhaust the pending range. -/
lemma runSched_true_pending_nil (s : TBitSet) :
    ∀ k p e, p ≤ e + 1 → e + 1 - p < k →
    pending s (runSched s (List.replicate k true) p e).2.2.1
      (runSched s (List.replicate k true) p e).2.2.2 = [] := by
  intro k
  induction k with
  | zero =>
    intro p e h hk
    omega
  | succ m ih =>
    intro p e h hk
    rw [List.replicate_succ]
    rcases fwdNext_spec s e (e + 1 - p) p rfl h with ⟨hf, hpend⟩ | ⟨y, hy1, hy2, hy3, hy4, hy5⟩
    · have hry : (next s p e).1 = none := by simp [next, hf]
      have hst1 : (next s p e).2.1 = e + 1 := by simp [next, hf]
      have hst2 : (next s p e).2.2 = e := by simp [next, hf]
      rw [runSched_true_none s _ p e hry]
      by_cases hm : m = 0
      · subst hm
        show pending s (runSched s [] (next s p e).2.1 (next s p e).2.2).2.2.1
          (runSched s [] (next s p e).2.1 (next s p e).2.2).2.2.2 = []
        unfold runSched
        rw [hst1, hst2]
        exact pending_nil s (e + 1) e (by omega)
      · exact ih _ _ (by rw [hst1, hst2]) (by rw [hst1, hst2]; omega)
    · have hry : (next s p e).1 = some y := by simp [next, hy4]
      have hst1 : (next s p e).2.1 = y + 1 := by simp [next, hy4]
      have hst2 : (next s p e).2.2 = e := by simp [next, hy4]
      rw [runSched_true_some s _ p e y hry]
      exact ih _ _ (by rw [hst1, hst2]; omega) (by rw [hst1, hst2]; omega)

/-- Full forward enumeration yields exactly the members of
`[0, frame_count * FRAME_SIZE]` in ascending order. -/
lemma fwdAll_eq (s : TBitSet) :
    fwdAll s = pending s 0 (frame_count s * FRAME_SIZE) := by
  have hinv := runSched_inv s (List.replicate (frame_count s * FRAME_SIZE + 2) true) 0
    (frame_count s * FRAME_SIZE) (by omega)
  have hback := runSched_true_back_nil s (frame_count s * FRAME_SIZE + 2) 0
    (frame_count s * FRAME_SIZE)
  have hpend := runSched_true_pending_nil s (frame_count s * FRAME_SIZE + 2) 0
    (frame_count s * FRAME_SIZE) (by omega) (by omega)
  unfold fwdAll
  rw [← hinv.2, hpend, hback]
  simp

end TBitSet

/-- Closed instance of C9 at the spec's concrete scenario (the
sortedness hypothesis is discharged by computation). -/
theorem binary_search_correct_witness :
    (∀ i, TSlice.binary_search ([10, 20, 30, 40] : List Int) 25 = .ok i →
       ∃ hh : i < ([10, 20, 30, 40] : List Int).length, ([10, 20, 30, 40] : List Int)[i] = 25)
    ∧ (∀ i, TSlice.binary_search ([10, 20, 30, 40] : List Int) 25 = .error i →
       i ≤ ([10, 20, 30, 40] : List Int).length
       ∧ List.Pairwise (· ≤ ·)
           (([10, 20, 30, 40] : List Int).take i ++ 25 :: ([10, 20, 30, 40] : List Int).drop i))
    ∧ TSlice.binary_search ([10, 20, 30, 40] : List Int) 25 = .error 2 :=
  binary_search_correct [10, 20, 30, 40] 25 (by decide)

/-!  Zero-extension lemmas (C4).  -/

namespace TBitSet

lemma get_usize_oob (s : TBitSet) (idx : Nat) (h : s.length ≤ idx / FRAME_SIZE) :
    get_usize s idx = false := by
  rw [get_usize_eq_testBit, List.getD_eq_getElem?_getD, List.getElem?_eq_none h]
  simp

lemma getD_append_zeros (a : List Nat) (m k : Nat) :
    (a ++ List.replicate m 0).getD k 0 = a.getD k 0 := by
  rw [List.getD_eq_getElem?_getD, List.getD_eq_getElem?_getD]
  by_cases h : k < a.length
  · rw [List.getElem?_append_left h]
  · rw [List.getElem?_eq_none (l := a) (by omega), List.getElem?_append_right (by omega),
      List.getElem?_replicate]
    by_cases h2 : k - a.length < m <;> simp [h2]

lemma get_usize_append_zeros (a : TBitSet) (n i : Nat) :
    get_usize (a ++ List.replicate n 0) i = get_usize a i := by
  rw [get_usize_eq_testBit, get_usize_eq_testBit, getD_append_zeros]

/-- An `all` over a `zip` of equally long frame vectors is frame-wise
agreement (with the zero default meaningless beyond the end). -/
lemma zip_all_beq_iff (l1 l2 : List Nat) (h : l1.length = l2.length) :
    ((l1.zip l2).all fun p => p.1 == p.2) = true ↔ ∀ k, l1.getD k 0 = l2.getD k 0 := by
  rw [List.all_eq_true]
  constructor
  · intro hall k
    rw [List.getD_eq_getElem?_getD, List.getD_eq_getElem?_getD]
    by_cases hk : k < l1.length
    · have hk2 : k < l2.length := by omega
      have hmem : (l1[k], l2[k]) ∈ l1.zip l2 := by
        rw [List.mem_iff_getElem?]
        exact ⟨k, List.getElem?_zip_eq_some.mpr
          ⟨List.getElem?_eq_getElem hk, List.getElem?_eq_getElem hk2⟩⟩
      have hb := hall _ hmem
      simp only [beq_iff_eq] at hb
      rw [List.getElem?_eq_getElem hk, List.getElem?_eq_getElem hk2]
      simpa using hb
    · rw [List.getElem?_eq_none (l := l1) (by omega), List.getElem?_eq_none (l := l2) (by omega)]
  · intro hk x hx
    rw [List.mem_iff_getElem?] at hx
    obtain ⟨k, hkx⟩ := hx
    rw [List.getElem?_zip_eq_some] at hkx
    obtain ⟨h1, h2⟩ := hkx
    have hgk := hk k
    rw [List.getD_eq_getElem?_getD, List.getD_eq_getElem?_getD, h1, h2] at hgk
    simp only [Option.getD_some] at hgk
    simp [hgk]

/-- Rust `PartialEq` is exactly frame-wise agreement after zero-extension. -/
lemma eqFrames_iff (a b : TBitSet) :
    eqFrames a b = true ↔ ∀ k, a.getD k 0 = b.getD k 0 := by
  unfold eqFrames
  by_cases h : frame_count a < frame_count b
  · rw [if_pos h, zip_all_beq_iff _ _ (by simp only [frame_count] at h; simp; omega)]
    constructor
    · intro hk k
      have := hk k
      rwa [getD_append_zeros] at this
    · intro hk k
      rw [getD_append_zeros]
      exact hk k
  · rw [if_neg h, zip_all_beq_iff _ _ (by simp only [frame_count] at h; simp; omega)]
    constructor
    · intro hk k
      have := hk k
      rwa [getD_append_zeros] at this
    · intro hk k
      rw [getD_append_zeros]
      exact hk k

/-- Trimming trailing zero frames never changes any (zero-defaulted)
frame value. -/
lemma shrink_getD (s : TBitSet) : ∀ k, (shrink_to_fit s).getD k 0 = s.getD k 0 := by
  suffices h : ∀ n t, List.length t ≤ n → ∀ k,
      (shrink_to_fit t).getD k 0 = t.getD k 0 by
    exact h s.length s le_rfl
  intro n
  induction n with
  | zero =>
    intro t ht k
    have ht0 : t = [] := by
      cases t
      · rfl
      · simp at ht
    subst ht0
    rw [shrink_to_fit]
    simp
  | succ m ih =>
    intro t ht k
    rw [shrink_to_fit]
    by_cases hl : t.getLast? = some 0
    · rw [dif_pos hl]
      have hne : t ≠ [] := by
        intro h0
        subst h0
        simp at hl
      have hpos : 0 < t.length := List.length_pos.mpr hne
      have hlen : t.dropLast.length ≤ m := by
        rw [List.length_dropLast]
        omega
      rw [ih t.dropLast hlen k]
      rw [List.getD_eq_getElem?_getD, List.getD_eq_getElem?_getD]
      by_cases hk : k < t.length - 1
      · rw [List.getElem?_eq_getElem (l := t.dropLast) (by rw [List.length_dropLast]; omega),
          List.getElem?_eq_getElem (l := t) (by omega)]
        simp [List.getElem_dropLast]
      · by_cases hk2 : k = t.length - 1
        · subst hk2
          rw [List.getElem?_eq_none (l := t.dropLast) (by rw [List.length_dropLast])]
          rw [List.getLast?_eq_getElem?] at hl
          rw [hl]
          simp
        · rw [List.getElem?_eq_none (l := t.dropLast) (by rw [List.length_dropLast]; omega),
            List.getElem?_eq_none (l := t) (by omega)]
    · rw [dif_neg hl]

lemma count_ones_zero : count_ones 0 = 0 := by
  rw [count_ones]
  simp

lemma element_count_append_zeros (a : TBitSet) (n : Nat) :
    element_count (a ++ List.replicate n 0) = element_count a := by
  unfold element_count
  suffices h : ∀ m acc, List.foldl (fun sum elem => sum + count_ones elem) acc
      (List.replicate m 0) = acc by
    rw [List.foldl_append, h]
  intro m
  induction m with
  | zero =>
    intro acc
    rfl
  | succ j ih =>
    intro acc
    rw [List.replicate_succ, List.foldl_cons]
    simp only [count_ones_zero, Nat.add_zero]
    exact ih acc

lemma fwdAll_append_zeros (a : TBitSet) (n : Nat) :
    fwdAll (a ++ List.replicate n 0) = fwdAll a := by
  rw [fwdAll_eq, fwdAll_eq]
  unfold pending
  rw [List.filter_congr (fun x _ => get_usize_append_zeros a n x)]
  have hN : frame_count (a ++ List.replicate n 0) = frame_count a + n := by
    simp [frame_count]
  rw [hN]
  have hmul : (frame_count a + n) * FRAME_SIZE
      = frame_count a * FRAME_SIZE + n * FRAME_SIZE := by
    rw [Nat.add_mul]
  have hsplit := List.range'_append_1 0 (frame_count a * FRAME_SIZE + 1) (n * FRAME_SIZE)
  simp only [Nat.zero_add] at hsplit
  have harg : n * FRAME_SIZE + (frame_count a * FRAME_SIZE + 1)
      = (frame_count a + n) * FRAME_SIZE + 1 - 0 := by
    rw [hmul]
    omega
  rw [harg] at hsplit
  rw [← hsplit, List.filter_append]
  have hnil : (List.range' (frame_count a * FRAME_SIZE + 1) (n * FRAME_SIZE)).filter
      (get_usize a) = [] := by
    rw [List.filter_eq_nil_iff]
    intro x hx
    rw [List.mem_range'] at hx
    obtain ⟨i, hi, rfl⟩ := hx
    have hle : a.length ≤ (frame_count a * FRAME_SIZE + 1 + 1 * i) / FRAME_SIZE := by
      simp only [frame_count, FRAME_SIZE]
      omega
    rw [get_usize_oob a _ hle]
    simp
  rw [hnil, List.append_nil]
  have h0 : frame_count a * FRAME_SIZE + 1 - 0 = frame_count a * FRAME_SIZE + 1 := by omega
  rw [h0]

end TBitSet

/-- C4: equality of bit sets is frame-wise agreement after conceptual
zero-extension; a set equals itself after trim; and two sets differing
only in trailing all-zero frames are equal, enumerate exactly the same
member indices (hence hash identically — the hash folds the enumerated
indices through the hasher, so any fold over them agrees), and report
the same element count. -/
theorem eq_hash_count_zero_extension (a b : TBitSet) (n : Nat) :
    (eqFrames a b = true ↔ ∀ k, a.getD k 0 = b.getD k 0)
    ∧ eqFrames (shrink_to_fit a) a = true
    ∧ eqFrames a (a ++ List.replicate n 0) = true
    ∧ fwdAll (a ++ List.replicate n 0) = fwdAll a
    ∧ (∀ (β : Type) (h0 : β) (step : β → Nat → β),
        List.foldl step h0 (fwdAll (a ++ List.replicate n 0))
          = List.foldl step h0 (fwdAll a))
    ∧ element_count (a ++ List.replicate n 0) = element_count a := by
  refine ⟨eqFrames_iff a b, ?_, ?_, fwdAll_append_zeros a n, ?_, element_count_append_zeros a n⟩
  · exact (eqFrames_iff _ _).mpr (shrink_getD a)
  · exact (eqFrames_iff _ _).mpr (fun k => (getD_append_zeros a n k).symm)
  · intro β h0 step
    rw [fwdAll_append_zeros a n]

/-- C6: for every set and every interleaving of front pulls (`next`)
and back pulls (`next_back`) on one iterator instance, the front yields
followed by the not-yet-consumed members followed by the reversed back
yields are exactly the full forward enumeration — so a complete
interleaving (one that empties the pending range) yields every member
exactly once, the meeting bit included, never skipped and never
duplicated; moreover the front yields are strictly ascending and the
back yields strictly descending. -/
theorem iter_interleaving_complete (s : TBitSet) (sched : List Bool) :
    (runSched s sched 0 (frame_count s * FRAME_SIZE)).1
      ++ pending s (runSched s sched 0 (frame_count s * FRAME_SIZE)).2.2.1
          (runSched s sched 0 (frame_count s * FRAME_SIZE)).2.2.2
      ++ (runSched s sched 0 (frame_count s * FRAME_SIZE)).2.1.reverse
      = fwdAll s
    ∧ List.Pairwise (· < ·) (runSched s sched 0 (frame_count s * FRAME_SIZE)).1
    ∧ List.Pairwise (· > ·) (runSched s sched 0 (frame_count s * FRAME_SIZE)).2.1 := by
  have hinv := runSched_inv s sched 0 (frame_count s * FRAME_SIZE) (by omega)
  have heq := hinv.2
  have hsorted : List.Pairwise (· < ·) (pending s 0 (frame_count s * FRAME_SIZE)) := by
    unfold pending
    exact List.Pairwise.filter _ (List.pairwise_lt_range' 0 _)
  rw [← heq] at hsorted
  refine ⟨by rw [heq, fwdAll_eq], ?_, ?_⟩
  · refine List.Pairwise.sublist ?_ hsorted
    exact (List.sublist_append_left _ _).trans (List.sublist_append_left _ _)
  · have hrev : List.Pairwise (· < ·)
        (runSched s sched 0 (frame_count s * FRAME_SIZE)).2.1.reverse :=
      List.Pairwise.sublist (List.sublist_append_right _ _) hsorted
    rw [List.pairwise_reverse] at hrev
    exact hrev

end Tindex
